import Mathlib

/-!
Verification of the Mars Credit miner supervisor (marscredit/monorepo).

Shallow embedding of the core components described in the spec:
port allocation and RPC URLs (`MinerInstance.ts`), the tab registry
(`MinerService`), the health-check step relation, genesis initialization
(`GenesisInit.ts`), the wallet service (`WalletService.ts`) including the
XOR obfuscation round trip, and the `weiToMars` formatter of the network
RPC client.

Machine integers are modelled as `Nat` (all quantities involved are
non-negative and no arithmetic here can overflow a JS number / BigInt);
JS strings are modelled as `String` or, where byte-level fidelity is
needed, as lists of UTF-8 code units (`List Nat`).
-/

namespace Mars

/-! ## Port allocation (`MinerInstance.ts`, `getPorts` / `rpcUrl`) -/

structure Ports where
  http : Nat
  ws : Nat
  p2p : Nat
deriving Repr, DecidableEq

/-- The `getPorts` from `MinerInstance.ts`: `const i = minerIndex - 1;
    http: 8546 + i * 2, ws: 8547 + i * 2, p2p: 30304 + i`. -/
def getPorts (minerIndex : Nat) : Ports :=
  let i := minerIndex - 1
  { http := 8546 + i * 2
    ws := 8547 + i * 2
    p2p := 30304 + i }

/-- The `MinerInstance.httpPort` getter. -/
def httpPort (minerIndex : Nat) : Nat := (getPorts minerIndex).http

/-- The `MinerInstance.rpcUrl` getter: `` `http://localhost:${this.httpPort}` ``. -/
def rpcUrl (minerIndex : Nat) : String :=
  "http://localhost:" ++ toString (httpPort minerIndex)

/-! ## `weiToMars` (network RPC client, `rpc.ts`) -/

/-- Value of one hex digit, as `BigInt`'s parser sees it. -/
def hexDigitVal (c : Char) : Nat :=
  if '0' ≤ c ∧ c ≤ '9' then c.toNat - '0'.toNat
  else if 'a' ≤ c ∧ c ≤ 'f' then c.toNat - 'a'.toNat + 10
  else if 'A' ≤ c ∧ c ≤ 'F' then c.toNat - 'A'.toNat + 10
  else 0

/-- The `BigInt("0x…")`: parse a `0x`-prefixed hex literal. -/
def parseHex (s : String) : Nat :=
  (s.toList.drop 2).foldl (fun a c => 16 * a + hexDigitVal c) 0

/-- JS `String.prototype.padStart(len, "0")`. -/
def padStart (s : String) (len : Nat) (c : Char) : String :=
  String.mk (List.replicate (len - s.length) c) ++ s

/-- JS `String.prototype.slice(0, n)`. -/
def sliceTo (s : String) (n : Nat) : String :=
  String.mk (s.toList.take n)

/-- JS `String.prototype.replace(/0+$/, "")`: strip trailing `'0'`s. -/
def stripTrailingZeros (s : String) : String :=
  String.mk (s.toList.reverse.dropWhile (· = '0')).reverse

/-- The `weiToMars` from the network RPC client:
```
const wei = BigInt(weiHex);
const divisor = BigInt(10 ** 18);
const whole = wei / divisor;
const frac = wei % divisor;
const fracStr = frac.toString().padStart(18, '0').slice(0, 6).replace(/0+$/, '') || '0';
return fracStr ? `${whole}.${fracStr}` : `${whole}`;
```
(`fracStr` is a nonempty string after the `|| '0'`, hence always truthy.) -/
def weiToMars (weiHex : String) : String :=
  let wei := parseHex weiHex
  let divisor := 10 ^ 18
  let whole := wei / divisor
  let frac := wei % divisor
  let fracStr0 := stripTrailingZeros (sliceTo (padStart (Nat.repr frac) 18 '0') 6)
  let fracStr := if fracStr0 = "" then "0" else fracStr0
  if fracStr ≠ "" then Nat.repr whole ++ "." ++ fracStr else Nat.repr whole

/-! ## Miner service registry (`MinerService` in `MinerInstance.ts`)

JS `Map<number, _>` is modelled as an insertion-ordered association list:
`Map.set` replaces in place or appends, `Map.delete` filters, `Map.get`
is `List.lookup`. -/

def mapSet (k : Nat) (v : α) : List (Nat × α) → List (Nat × α)
  | [] => [(k, v)]
  | (k0, v0) :: rest => if k0 = k then (k, v) :: rest else (k0, v0) :: mapSet k v rest

def mapDelete (k : Nat) (l : List (Nat × α)) : List (Nat × α) :=
  l.filter (fun p => p.1 != k)

/-- The `Partial<MinerInstanceConfig>` restricted to the three merged fields
(a missing key is `none`). -/
structure PartialConfig where
  minerThreads : Option Nat
  cacheMB : Option Nat
  etherbase : Option String
deriving Repr, DecidableEq

/-- The per-index config cache entry of `MinerService`. -/
structure CachedConfig where
  minerThreads : Nat
  cacheMB : Nat
  etherbase : Option String
deriving Repr, DecidableEq

/-- The `configCache.get(minerIndex) ?? { minerThreads: 1, cacheMB: 4096 }`. -/
def defaultCached : CachedConfig := ⟨1, 4096, Option.none⟩

/-- A `MinerInstance` as held by the service: its config plus the owned
child process (pid), if any. -/
structure InstanceRec where
  minerIndex : Nat
  minerThreads : Nat
  cacheMB : Nat
  etherbase : Option String
  processPid : Option Nat
deriving Repr, DecidableEq

/-- The `MinerService` registry: `instances` and `configCache` maps.
(The geth binary path does not influence any claim and is omitted.) -/
structure ServiceState where
  instances : List (Nat × InstanceRec)
  configCache : List (Nat × CachedConfig)
deriving Repr, DecidableEq

def ServiceState.empty : ServiceState := ⟨[], []⟩

/-- The `Math.max(...xs)` over a list of tab indices (all ≥ 1 in practice;
`addTab` only calls it on a non-empty list). -/
def jsMathMax (l : List Nat) : Nat := l.foldl Nat.max 0

/-- The `MinerService.getTabIndices`: keys of `instances`, sorted ascending
(`.sort((a, b) => a - b)`; map keys are distinct, so any sort that
produces an ascending permutation yields the same list). -/
def getTabIndices (s : ServiceState) : List Nat :=
  (s.instances.map (fun p => p.1)).insertionSort (fun a b => a ≤ b)

/-- The `MinerService.getOrCreateInstance`: merge the partial config over the
cache (`config?.f ?? cached.f`), store it, then create the instance if
absent or `updateConfig` the existing one if a config was supplied. -/
def getOrCreateInstance (s : ServiceState) (minerIndex : Nat)
    (config : Option PartialConfig) : InstanceRec × ServiceState :=
  let cached := (s.configCache.lookup minerIndex).getD defaultCached
  let merged : CachedConfig :=
    { minerThreads := (config.bind (fun c => c.minerThreads)).getD cached.minerThreads
      cacheMB := (config.bind (fun c => c.cacheMB)).getD cached.cacheMB
      etherbase := (config.bind (fun c => c.etherbase)).orElse (fun _ => cached.etherbase) }
  let s1 : ServiceState := { s with configCache := mapSet minerIndex merged s.configCache }
  match s.instances.lookup minerIndex with
  | Option.none =>
    let inst : InstanceRec :=
      ⟨minerIndex, merged.minerThreads, merged.cacheMB, merged.etherbase, Option.none⟩
    (inst, { s1 with instances := mapSet minerIndex inst s1.instances })
  | Option.some inst =>
    match config with
    | Option.some cfg =>
      let inst2 : InstanceRec :=
        { inst with
            minerThreads := cfg.minerThreads.getD inst.minerThreads
            cacheMB := cfg.cacheMB.getD inst.cacheMB
            etherbase := cfg.etherbase.orElse (fun _ => inst.etherbase) }
      (inst2, { s1 with instances := mapSet minerIndex inst2 s1.instances })
    | Option.none => (inst, s1)

/-- The `MinerService.addTab`: next index is `max existing + 1`, or 1 when the
registry is empty; creates but does not start the instance. -/
def addTab (s : ServiceState) (config : Option PartialConfig) : Nat × ServiceState :=
  let existing := getTabIndices s
  let nextIndex := if existing.length = 0 then 1 else jsMathMax existing + 1
  let r := getOrCreateInstance s nextIndex config
  (nextIndex, r.2)

/-- The `MinerService.removeTab`: when an instance exists, stop it and delete
both the instance and its cached config; otherwise do nothing. -/
def removeTab (s : ServiceState) (minerIndex : Nat) : ServiceState :=
  match s.instances.lookup minerIndex with
  | Option.some _ =>
    { s with
        instances := mapDelete minerIndex s.instances
        configCache := mapDelete minerIndex s.configCache }
  | Option.none => s

/-- The `MinerTabState` as returned by `getMinerState`. -/
structure MinerTabState where
  minerIndex : Nat
  running : Bool
  pid : Option Nat
  tabRpcUrl : String
  cfgMinerThreads : Nat
  cfgCacheMB : Nat
  cfgEtherbase : Option String
deriving Repr, DecidableEq

/-- The `MinerService.getMinerState`: `null` when no instance is registered;
otherwise the instance's run state plus the cached config. -/
def getMinerState (s : ServiceState) (minerIndex : Nat) : Option MinerTabState :=
  match s.instances.lookup minerIndex with
  | Option.none => Option.none
  | Option.some inst =>
    let cached := (s.configCache.lookup minerIndex).getD defaultCached
    Option.some
      ⟨inst.minerIndex, inst.processPid.isSome, inst.processPid, rpcUrl inst.minerIndex,
       cached.minerThreads, cached.cacheMB, cached.etherbase⟩

/-- Iterate `addTab` (no explicit config) `n` times, collecting the
returned indices in call order. -/
def addTabsCollect : Nat → ServiceState → ServiceState × List Nat
  | 0, s => (s, [])
  | n + 1, s =>
    let r := addTab s Option.none
    let rest := addTabsCollect n r.2
    (rest.1, r.1 :: rest.2)

/-! ## Health checker (`MinerInstance.checkHealth` / `startHealthCheck`) -/

/-- The health-check fields of a `MinerInstance`: the consecutive-failure
counter and whether the instance has invoked its own `stop()`. -/
structure HealthState where
  healthFailures : Nat
  stopped : Bool
deriving Repr, DecidableEq

/-- The `private readonly maxHealthFailures = 3`. -/
def maxHealthFailures : Nat := 3

/-- One `checkHealth` tick, given the probe outcome (`ok` = the HTTP
response was 2xx).  After `stop()` the timer is cleared and the owned
process is gone, so further ticks are identity. -/
def checkHealth (s : HealthState) (ok : Bool) : HealthState :=
  if s.stopped then s
  else if ok then { s with healthFailures := 0 }
  else
    let f := s.healthFailures + 1
    if maxHealthFailures ≤ f then { healthFailures := f, stopped := true }
    else { s with healthFailures := f }

/-- Run the health checker over a trace of probe outcomes. -/
def runHealth (s : HealthState) : List Bool → HealthState
  | [] => s
  | r :: rest => runHealth (checkHealth s r) rest

/-- The `startHealthCheck` resets the failure counter to 0. -/
def startHealthState : HealthState := ⟨0, false⟩

/-- Spec-side predicate (from the claim's words, for comparison with the
code): the probe trace contains 3 consecutive failures. -/
def specThreeConsecFailures : List Bool → Bool
  | false :: false :: false :: _ => true
  | _ :: rest => specThreeConsecFailures rest
  | [] => false

/-- Spec-side helper: the trace starts with `n` failed probes. -/
def startsWithFalses : Nat → List Bool → Bool
  | 0, _ => true
  | n + 1, false :: rest => startsWithFalses n rest
  | _ + 1, _ => false

/-! ## `MinerInstance.start` (C7) -/

/-- Externally visible steps of `MinerInstance.start`. -/
inductive StartAction
  | initDataDir (minerIndex : Nat)
  | mkdirLogs (minerIndex : Nat)
  | spawnGeth (minerIndex : Nat)
  | writePidFile (minerIndex : Nat) (pid : Nat)
deriving Repr, DecidableEq

/-- The process-owning fields of a `MinerInstance`. -/
structure InstProcState where
  processPid : Option Nat
  healthFailures : Nat
  healthTimerOn : Bool
deriving Repr, DecidableEq

/-- The `MinerInstance.start()`: if a process is already owned, log a warning
and return (normally — the promise resolves); otherwise run genesis init
(which may throw), make the logs dir, spawn Geth, write the PID file and
start the health checker.  `initOk` is whether genesis init succeeds and
`newPid` the pid the spawn would produce. -/
def instanceStart (i : Nat) (st : InstProcState) (initOk : Bool) (newPid : Nat) :
    Except String InstProcState × List StartAction :=
  match st.processPid with
  | Option.some _ => (Except.ok st, [])
  | Option.none =>
    if initOk then
      (Except.ok { processPid := Option.some newPid, healthFailures := 0, healthTimerOn := true },
       [StartAction.initDataDir i, StartAction.mkdirLogs i,
        StartAction.spawnGeth i, StartAction.writePidFile i newPid])
    else (Except.error "geth init failed", [StartAction.initDataDir i])

/-- Whether an `Except` result is a normal (non-throwing) return. -/
def exceptIsOk : Except ε α → Bool
  | Except.ok _ => true
  | Except.error _ => false

/-! ## Registry lemmas -/

theorem lookup_mapDelete_self (k : Nat) (l : List (Nat × α)) :
    (mapDelete k l).lookup k = Option.none := by
  induction l with
  | nil => rfl
  | cons p rest ih =>
    obtain ⟨k0, v0⟩ := p
    by_cases h : k0 = k
    · simpa [mapDelete, List.filter_cons, h] using ih
    · have hbne : (k0 != k) = true := by simpa using h
      have hbeq : (k == k0) = false := by
        simpa using Ne.symm h
      simp only [mapDelete, List.filter_cons, hbne, if_pos] at ih ⊢
      simpa [List.lookup, hbeq] using ih

theorem mem_keys_mapDelete {k j : Nat} {l : List (Nat × α)} :
    j ∈ (mapDelete k l).map (fun p => p.1) ↔
      (j ∈ l.map (fun p => p.1) ∧ j ≠ k) := by
  simp only [mapDelete, List.mem_map, List.mem_filter, bne_iff_ne, ne_eq]
  constructor
  · rintro ⟨p, ⟨hp, hne⟩, rfl⟩
    exact ⟨⟨p, hp, rfl⟩, hne⟩
  · rintro ⟨⟨p, hp, rfl⟩, hne⟩
    exact ⟨p, ⟨hp, hne⟩, rfl⟩

theorem lookup_eq_none_of_not_mem_keys {k : Nat} {l : List (Nat × α)}
    (h : k ∉ l.map (fun p => p.1)) : l.lookup k = Option.none := by
  induction l with
  | nil => rfl
  | cons p rest ih =>
    obtain ⟨k0, v0⟩ := p
    simp only [List.map_cons, List.mem_cons, not_or] at h
    have hbeq : (k == k0) = false := by simpa using h.1
    simpa [List.lookup, hbeq] using ih h.2

theorem mapSet_eq_append_of_not_mem {k : Nat} (v : α) {l : List (Nat × α)}
    (h : k ∉ l.map (fun p => p.1)) : mapSet k v l = l ++ [(k, v)] := by
  induction l with
  | nil => rfl
  | cons p rest ih =>
    obtain ⟨k0, v0⟩ := p
    simp only [List.map_cons, List.mem_cons, not_or] at h
    have : ¬ (k0 = k) := fun e => h.1 (e.symm)
    simp [mapSet, this, ih h.2]

theorem lookup_mapSet_self (k : Nat) (v : α) (l : List (Nat × α)) :
    (mapSet k v l).lookup k = Option.some v := by
  induction l with
  | nil => simp [mapSet, List.lookup]
  | cons p rest ih =>
    obtain ⟨k0, v0⟩ := p
    by_cases h : k0 = k
    · simp [mapSet, h, List.lookup]
    · have hbeq : (k == k0) = false := by simpa using Ne.symm h
      simpa [mapSet, h, List.lookup, hbeq] using ih

theorem lookup_isSome_of_mem_keys {k : Nat} {l : List (Nat × α)}
    (h : k ∈ l.map (fun p => p.1)) : (l.lookup k).isSome = true := by
  induction l with
  | nil => simp at h
  | cons p rest ih =>
    obtain ⟨k0, v0⟩ := p
    by_cases hk : k = k0
    · simp [List.lookup, hk]
    · have hbeq : (k == k0) = false := by simpa using hk
      simp only [List.map_cons, List.mem_cons] at h
      rcases h with h | h
      · exact absurd h hk
      · simpa [List.lookup, hbeq] using ih h

/-- When no instance is registered at `i`, `getOrCreateInstance` adds one
(whose config depends on the cache) via `Map.set`. -/
theorem getOrCreateInstance_instances_of_lookup_none {s : ServiceState} {i : Nat}
    (h : s.instances.lookup i = Option.none) (config : Option PartialConfig) :
    ∃ inst : InstanceRec,
      (getOrCreateInstance s i config).2.instances = mapSet i inst s.instances := by
  unfold getOrCreateInstance
  rw [h]
  exact ⟨_, rfl⟩

theorem le_foldl_max (l : List Nat) (a : Nat) : a ≤ l.foldl Nat.max a := by
  induction l generalizing a with
  | nil => simp
  | cons x rest ih =>
    exact le_trans (Nat.le_max_left a x) (ih (Nat.max a x))

theorem mem_le_foldl_max {x : Nat} {l : List Nat} (hx : x ∈ l) (a : Nat) :
    x ≤ l.foldl Nat.max a := by
  induction l generalizing a with
  | nil => cases hx
  | cons y rest ih =>
    rcases List.mem_cons.mp hx with h | h
    · subst h
      exact le_trans (Nat.le_max_right a x) (le_foldl_max rest _)
    · exact ih h _

theorem foldl_max_le {l : List Nat} {b : Nat} (h : ∀ x ∈ l, x ≤ b) :
    ∀ {a : Nat}, a ≤ b → l.foldl Nat.max a ≤ b := by
  induction l with
  | nil => intro a ha; simpa using ha
  | cons x rest ih =>
    intro a ha
    exact ih (fun y hy => h y (List.mem_cons_of_mem x hy))
      (Nat.max_le.mpr ⟨ha, h x (List.mem_cons_self x rest)⟩)

theorem foldl_max_append (l : List Nat) (a x : Nat) :
    (l ++ [x]).foldl Nat.max a = Nat.max (l.foldl Nat.max a) x := by
  simp [List.foldl_append]

/-- Sorting the tab indices does not change their `Math.max`. -/
theorem jsMathMax_getTabIndices (s : ServiceState) :
    jsMathMax (getTabIndices s) = jsMathMax (s.instances.map (fun p => p.1)) := by
  unfold jsMathMax getTabIndices
  exact @List.Perm.foldl_eq Nat Nat Nat.max _ _ _
    (List.perm_insertionSort (fun a b => a ≤ b) (s.instances.map (fun p => p.1))) 0

theorem getTabIndices_eq_nil_iff (s : ServiceState) :
    getTabIndices s = [] ↔ s.instances = [] := by
  unfold getTabIndices
  constructor
  · intro h
    have := (List.perm_insertionSort (fun a b => a ≤ b)
      (s.instances.map (fun p => p.1))).length_eq
    rw [h] at this
    simpa using List.map_eq_nil_iff.mp (List.eq_nil_of_length_eq_zero this.symm)
  · intro h
    simp [h]

theorem addTab_fst_eq (s : ServiceState) (m : Nat)
    (hm : jsMathMax (s.instances.map (fun p => p.1)) = m)
    (hemp : s.instances = [] → m = 0) :
    (addTab s Option.none).1 = m + 1 := by
  by_cases hnil : s.instances = []
  · have hgt : getTabIndices s = [] := (getTabIndices_eq_nil_iff s).mpr hnil
    simp [addTab, hgt, hemp hnil]
  · have hne : getTabIndices s ≠ [] := fun h => hnil ((getTabIndices_eq_nil_iff s).mp h)
    have hlen : ¬ (getTabIndices s).length = 0 := by
      simpa [List.length_eq_zero] using hne
    simp [addTab, hlen, jsMathMax_getTabIndices, hm]

/-- The `addTab` decomposed: the produced state is `getOrCreateInstance` at
the produced index. -/
theorem addTab_eta (s : ServiceState) (c : Option PartialConfig) :
    addTab s c = ((addTab s c).1, (getOrCreateInstance s (addTab s c).1 c).2) := rfl

theorem addTab_snd_instances (s : ServiceState) (m : Nat)
    (hm : jsMathMax (s.instances.map (fun p => p.1)) = m)
    (hemp : s.instances = [] → m = 0) :
    ∃ inst : InstanceRec,
      (addTab s Option.none).2.instances = s.instances ++ [(m + 1, inst)] := by
  have hkeys_le : ∀ j ∈ s.instances.map (fun p => p.1), j ≤ m :=
    fun j hj => hm ▸ mem_le_foldl_max hj 0
  have hnm : (m + 1) ∉ s.instances.map (fun p => p.1) := by
    intro hmem
    have := hkeys_le _ hmem
    omega
  have hlk : s.instances.lookup (m + 1) = Option.none :=
    lookup_eq_none_of_not_mem_keys hnm
  obtain ⟨inst, hinst⟩ := getOrCreateInstance_instances_of_lookup_none hlk Option.none
  refine ⟨inst, ?_⟩
  have hsnd : (addTab s Option.none).2
      = (getOrCreateInstance s (addTab s Option.none).1 Option.none).2 := rfl
  rw [hsnd, addTab_fst_eq s m hm hemp, hinst, mapSet_eq_append_of_not_mem inst hnm]

/-- The `addTab` iterated `n` times from a registry whose largest index is `m`
returns the indices `m+1, …, m+n` in order. -/
theorem addTabsCollect_range : ∀ (n : Nat) (s : ServiceState) (m : Nat),
    jsMathMax (s.instances.map (fun p => p.1)) = m →
    (s.instances = [] → m = 0) →
    (addTabsCollect n s).2 = List.range' (m + 1) n := by
  intro n
  induction n with
  | zero => intro s m _ _; rfl
  | succ n ih =>
    intro s m hm hemp
    have h1 : (addTab s Option.none).1 = m + 1 := addTab_fst_eq s m hm hemp
    obtain ⟨inst, h2⟩ := addTab_snd_instances s m hm hemp
    have hm' : jsMathMax ((addTab s Option.none).2.instances.map (fun p => p.1)) = m + 1 := by
      unfold jsMathMax at hm ⊢
      rw [h2]
      simp only [List.map_append, List.map_cons, List.map_nil]
      rw [foldl_max_append, hm]
      exact Nat.max_eq_right (Nat.le_succ m)
    have hne' : (addTab s Option.none).2.instances = [] → m + 1 = 0 := by
      intro hh
      rw [h2] at hh
      simp at hh
    have hstep : (addTabsCollect (n + 1) s).2
        = (addTab s Option.none).1 :: (addTabsCollect n (addTab s Option.none).2).2 := rfl
    rw [hstep, h1, ih _ _ hm' hne']
    rfl

/-! ## Genesis initialization (`GenesisInit.ts`, `utils/paths.ts`)

The filesystem is modelled as the list of existing paths; `path.join` is
`/`-joining as on a POSIX host. -/

/-- The `getMarsCreditDir`: `path.join(os.homedir(), '.marscredit')`. -/
def getMarsCreditDir (home : String) : String := home ++ "/.marscredit"

/-- The `getMinerDataDir(i)`: `path.join(getMarsCreditDir(), 'miners', String(i))`. -/
def getMinerDataDir (home : String) (i : Nat) : String :=
  getMarsCreditDir home ++ "/miners/" ++ toString i

/-- The `const CHAINDATA_DIR = 'geth/chaindata'`. -/
def chaindataSubdir : String := "geth/chaindata"

/-- Externally visible steps of `initMinerDataDir`. -/
inductive GInitAction
  | mkdir (path : String)
  | gethInit (dataDir genesis : String)
deriving Repr, DecidableEq

/-- The `initMinerDataDir(gethBinaryPath, minerIndex, genesisPath?)`: if
`miners/<i>/geth/chaindata` exists, return without action; otherwise
verify the genesis file exists, create the data/keystore/logs dirs and
run `geth init` synchronously (a non-zero exit throws).

`gethInitOk` is whether the external `geth init` run succeeds; on success
the chaindata directory materializes (modelled from the spec: the
external Geth binary is not part of the repository, and the spec states
"presence of `miners/<i>/geth/chaindata` = initialized"). -/
def initMinerDataDir (home : String) (gethInitOk : Bool) (genesisPath : String)
    (genesisExists : Bool) (i : Nat) (fs : List String) :
    Except String (List String × List GInitAction) :=
  if getMinerDataDir home i ++ "/" ++ chaindataSubdir ∈ fs then Except.ok (fs, [])
  else if genesisExists = false then
    Except.error ("Genesis file not found: " ++ genesisPath)
  else if gethInitOk then
    Except.ok
      (fs ++ [getMinerDataDir home i, getMinerDataDir home i ++ "/keystore",
              getMinerDataDir home i ++ "/logs"]
          ++ [getMinerDataDir home i ++ "/" ++ chaindataSubdir],
       [GInitAction.mkdir (getMinerDataDir home i),
        GInitAction.mkdir (getMinerDataDir home i ++ "/keystore"),
        GInitAction.mkdir (getMinerDataDir home i ++ "/logs"),
        GInitAction.gethInit (getMinerDataDir home i) genesisPath])
  else Except.error "geth init failed"

/-! ## Wallet service (`WalletService.ts`): address-only mode -/

/-- The character class `[0-9a-fA-F]` of the validation regex. -/
def hexChars : List Char := "0123456789abcdefABCDEF".toList

/-- The `isValidAddress`: the regex `^0x[0-9a-fA-F]{40}$`. -/
def isValidAddress (s : String) : Bool :=
  match s.toList with
  | '0' :: 'x' :: rest => rest.length = 40 && rest.all (fun c => hexChars.contains c)
  | _ => false

/-- JS `String.prototype.trim()`: strip whitespace from both ends. -/
def jsTrim (s : String) : String :=
  String.mk (((s.toList.dropWhile Char.isWhitespace).reverse.dropWhile
    Char.isWhitespace).reverse)

/-- The slice of the filesystem the wallet service reads and writes:
the `mining_address.txt` content (if the file exists), whether
`~/.marscredit` exists, and per miner index whether `miners/<i>/keystore`
exists together with its `(filename, content)` listing in readdir order. -/
structure WalletFs where
  miningAddressFile : Option String
  marsDirExists : Bool
  keystoreDirExists : Nat → Bool
  keystoreFiles : Nat → List (String × String)

/-- Externally visible filesystem writes of `setAddressOnly`. -/
inductive WalletAction
  | mkdirMarsDir
  | writeAddressFile
deriving Repr, DecidableEq

/-- The `setAddressOnly(address)`: throw `Invalid address` before touching the
filesystem unless the regex matches; otherwise `mkdirSync` the base dir
and write the address to `mining_address.txt`. -/
def setAddressOnly (a : String) (fs : WalletFs) :
    Except String (WalletFs × List WalletAction) :=
  if isValidAddress a then
    Except.ok ({ fs with marsDirExists := true, miningAddressFile := Option.some a },
               [WalletAction.mkdirMarsDir, WalletAction.writeAddressFile])
  else Except.error "Invalid address"

/-- The `getStoredMiningAddress(minerIndex?)`: prefer the trimmed
`mining_address.txt` content; else, if an index is supplied, read the
first `UTC--`-prefixed keystore file in that miner's keystore dir and
return its embedded address with a `0x` prefix ensured.
`parseKeystoreAddress` abstracts `JSON.parse(content).address`
(`none` for a missing/falsy field). -/
def getStoredMiningAddress (parseKeystoreAddress : String → Option String)
    (fs : WalletFs) (minerIndex : Option Nat) : Option String :=
  match fs.miningAddressFile with
  | Option.some content => Option.some (jsTrim content)
  | Option.none =>
    match minerIndex with
    | Option.some i =>
      if fs.keystoreDirExists i then
        match (fs.keystoreFiles i).filter (fun f => f.1.startsWith "UTC--") with
        | f :: _ =>
          match parseKeystoreAddress f.2 with
          | Option.some addr =>
            Option.some (if addr.startsWith "0x" then addr else "0x" ++ addr)
          | Option.none => Option.none
        | [] => Option.none
      else Option.none
    | Option.none => Option.none

/-! ## Mnemonic obfuscation (`simpleObfuscate` / `simpleDeobfuscate`)

`Buffer.from(s, 'utf8')` is UTF-8 encoding of the string's characters
(modelled as unicode scalars, which every mnemonic is); `buf[i] ^= k`
assigns modulo 256; `toString('base64')` is standard padded base64. -/

/-- UTF-8 encoding of one unicode scalar value. -/
def utf8EncodeChar (c : Char) : List Nat :=
  let n := c.toNat
  if n < 0x80 then [n]
  else if n < 0x800 then [0xC0 + n / 64, 0x80 + n % 64]
  else if n < 0x10000 then [0xE0 + n / 4096, 0x80 + (n / 64) % 64, 0x80 + n % 64]
  else [0xF0 + n / 262144, 0x80 + (n / 4096) % 64, 0x80 + (n / 64) % 64, 0x80 + n % 64]

/-- The `Buffer.from(·, 'utf8')` over the character list. -/
def utf8Encode : List Char → List Nat
  | [] => []
  | c :: rest => utf8EncodeChar c ++ utf8Encode rest

/-- Decode one UTF-8 scalar from a leading byte and the following bytes:
the character and the remaining bytes, or `none` on a malformed prefix. -/
def utf8DecodeOne (b1 : Nat) (rest : List Nat) : Option (Char × List Nat) :=
  if b1 < 0x80 then Option.some (Char.ofNat b1, rest)
  else if 0xC0 ≤ b1 ∧ b1 < 0xE0 then
    match rest with
    | b2 :: rest2 =>
      if 0x80 ≤ b2 ∧ b2 < 0xC0 then
        Option.some (Char.ofNat ((b1 - 0xC0) * 64 + (b2 - 0x80)), rest2)
      else Option.none
    | [] => Option.none
  else if 0xE0 ≤ b1 ∧ b1 < 0xF0 then
    match rest with
    | b2 :: b3 :: rest3 =>
      if (0x80 ≤ b2 ∧ b2 < 0xC0) ∧ (0x80 ≤ b3 ∧ b3 < 0xC0) then
        Option.some (Char.ofNat ((b1 - 0xE0) * 4096 + (b2 - 0x80) * 64 + (b3 - 0x80)), rest3)
      else Option.none
    | _ => Option.none
  else if 0xF0 ≤ b1 ∧ b1 < 0xF8 then
    match rest with
    | b2 :: b3 :: b4 :: rest4 =>
      if (0x80 ≤ b2 ∧ b2 < 0xC0) ∧ (0x80 ≤ b3 ∧ b3 < 0xC0) ∧ (0x80 ≤ b4 ∧ b4 < 0xC0) then
        Option.some
          (Char.ofNat ((b1 - 0xF0) * 262144 + (b2 - 0x80) * 4096 + (b3 - 0x80) * 64 + (b4 - 0x80)),
           rest4)
      else Option.none
    | _ => Option.none
  else Option.none

/-- Decode scalars one at a time; the fuel (one unit per character) only
serves structural recursion and never runs out when it starts at the byte
count, since every scalar consumes at least one byte. -/
def utf8DecodeFuel : Nat → List Nat → Option (List Char)
  | _, [] => Option.some []
  | 0, _ :: _ => Option.none
  | fuel + 1, b1 :: rest =>
    match utf8DecodeOne b1 rest with
    | Option.some (c, restAfter) => (utf8DecodeFuel fuel restAfter).map (fun cs => c :: cs)
    | Option.none => Option.none

/-- The `buf.toString('utf8')`, strict: `none` on malformed input (Node
substitutes U+FFFD there; the round trip only ever decodes valid
encodings, where both agree). -/
def utf8Decode (l : List Nat) : Option (List Char) := utf8DecodeFuel l.length l

/-- The `buf[i] ^= k`: Buffer element assignment is modulo 256. -/
def xorByte (a k : Nat) : Nat := (a ^^^ k) % 256

/-- The XOR loop of `simpleObfuscate`/`simpleDeobfuscate`:
`buf[i] ^= key[i % key.length]` over the data bytes, starting at byte
index `i`. -/
def xorCycle (key : List Nat) : Nat → List Nat → List Nat
  | _, [] => []
  | i, b :: rest => xorByte b (key.getD (i % key.length) 0) :: xorCycle key (i + 1) rest

/-- The standard base64 alphabet. -/
def b64Alphabet : List Char :=
  "ABCDEFGHIJKLMNOPQRSTUVWXYZabcdefghijklmnopqrstuvwxyz0123456789+/".toList

def b64Ch (n : Nat) : Char := b64Alphabet.getD n 'A'

/-- Decode one base64 alphabet character (Node's decoder mapping on the
characters the encoder can emit). -/
def b64DecodeChar (c : Char) : Option Nat :=
  if b64Alphabet.contains c then Option.some (b64Alphabet.indexOf c) else Option.none

/-- The `buf.toString('base64')`: padded base64, 3 bytes per 4 characters. -/
def b64Encode : List Nat → List Char
  | [] => []
  | [a] => [b64Ch (a / 4), b64Ch ((a % 4) * 16), '=', '=']
  | [a, b] => [b64Ch (a / 4), b64Ch ((a % 4) * 16 + b / 16), b64Ch ((b % 16) * 4), '=']
  | a :: b :: c :: rest =>
    b64Ch (a / 4) :: b64Ch ((a % 4) * 16 + b / 16) :: b64Ch ((b % 16) * 4 + c / 64)
      :: b64Ch (c % 64) :: b64Encode rest

/-- The `Buffer.from(·, 'base64')` on well-formed (encoder-produced) input. -/
def b64Decode : List Char → Option (List Nat)
  | [] => Option.some []
  | c1 :: c2 :: c3 :: c4 :: rest =>
    if c3 = '=' ∧ c4 = '=' ∧ rest = [] then
      match b64DecodeChar c1, b64DecodeChar c2 with
      | Option.some w1, Option.some w2 => Option.some [w1 * 4 + w2 / 16]
      | _, _ => Option.none
    else if c4 = '=' ∧ rest = [] then
      match b64DecodeChar c1, b64DecodeChar c2, b64DecodeChar c3 with
      | Option.some w1, Option.some w2, Option.some w3 =>
        Option.some [w1 * 4 + w2 / 16, (w2 % 16) * 16 + w3 / 4]
      | _, _, _ => Option.none
    else
      match b64DecodeChar c1, b64DecodeChar c2, b64DecodeChar c3, b64DecodeChar c4 with
      | Option.some w1, Option.some w2, Option.some w3, Option.some w4 =>
        (b64Decode rest).map (fun bs =>
          (w1 * 4 + w2 / 16) :: ((w2 % 16) * 16 + w3 / 4) :: ((w3 % 4) * 64 + w4) :: bs)
      | _, _, _, _ => Option.none
  | _ => Option.none

/-- The `simpleObfuscate(data, password)`: UTF-8 bytes of `data`, XORed with
the cycled UTF-8 bytes of `password`, base64-encoded.  The result is the
character content written to `wallet.enc`. -/
def simpleObfuscate (data password : String) : List Char :=
  b64Encode (xorCycle (utf8Encode password.toList) 0 (utf8Encode data.toList))

/-- The `simpleDeobfuscate(encoded, password)`: base64-decode, XOR with the
cycled password bytes, decode as UTF-8. -/
def simpleDeobfuscate (encoded : List Char) (password : String) : Option String :=
  match b64Decode encoded with
  | Option.some bytes =>
    match utf8Decode (xorCycle (utf8Encode password.toList) 0 bytes) with
    | Option.some cs => Option.some (String.mk cs)
    | Option.none => Option.none
  | Option.none => Option.none

/-- The `saveMnemonic(mnemonic, password)`: the content written to
`wallet.enc`. -/
def saveMnemonic (mnemonic password : String) : List Char :=
  simpleObfuscate mnemonic password

/-- The `loadMnemonic(password)` given the current `wallet.enc` content
(`none` when the file does not exist). -/
def loadMnemonic (password : String) (walletEncFile : Option (List Char)) : Option String :=
  match walletEncFile with
  | Option.some enc => simpleDeobfuscate enc password
  | Option.none => Option.none

/-! ## Wallet lemmas -/

theorem hexChars_not_whitespace : ∀ c ∈ hexChars, c.isWhitespace = false := by decide

theorem dropWhile_eq_self_of_not (p : Char → Bool) (l : List Char)
    (h : ∀ c ∈ l, p c = false) : l.dropWhile p = l := by
  cases l with
  | nil => rfl
  | cons c t => simp [List.dropWhile_cons, h c (List.mem_cons_self c t)]

/-- A valid address has no surrounding whitespace, so `trim` is the
identity on it. -/
theorem jsTrim_valid {a : String} (h : isValidAddress a = true) : jsTrim a = a := by
  unfold isValidAddress at h
  split at h
  case _ rest heq =>
    simp only [Bool.and_eq_true, List.all_eq_true, decide_eq_true_eq] at h
    obtain ⟨hlen, hall⟩ := h
    have hnotws : ∀ c ∈ a.toList, c.isWhitespace = false := by
      intro c hc
      rw [heq] at hc
      rcases List.mem_cons.mp hc with rfl | hc
      · rfl
      · rcases List.mem_cons.mp hc with rfl | hc
        · rfl
        · refine hexChars_not_whitespace c ?_
          have := hall c hc
          simpa using this
    unfold jsTrim
    rw [dropWhile_eq_self_of_not _ _ hnotws,
        dropWhile_eq_self_of_not _ _ (fun c hc => hnotws c (List.mem_reverse.mp hc)),
        List.reverse_reverse]
    rfl
  case _ => exact absurd h (by simp)

/-! ## Obfuscation round-trip lemmas -/

theorem char_toNat_lt (c : Char) : c.toNat < 1114112 := by
  rcases c.valid with h | ⟨h1, h2⟩
  · have : c.val.toNat < 55296 := h
    simp only [Char.toNat]
    omega
  · have : c.val.toNat < 1114112 := h2
    simp only [Char.toNat]
    omega

theorem utf8EncodeChar_lt (c : Char) : ∀ b ∈ utf8EncodeChar c, b < 256 := by
  intro b hb
  have hn := char_toNat_lt c
  simp only [utf8EncodeChar] at hb
  split_ifs at hb <;>
    simp only [List.mem_cons, List.not_mem_nil, or_false] at hb <;> omega

theorem utf8Encode_lt (l : List Char) : ∀ b ∈ utf8Encode l, b < 256 := by
  induction l with
  | nil => intro b hb; cases hb
  | cons c rest ih =>
    intro b hb
    rw [utf8Encode] at hb
    rcases List.mem_append.mp hb with hb | hb
    · exact utf8EncodeChar_lt c b hb
    · exact ih b hb

theorem xorByte_lt (a k : Nat) : xorByte a k < 256 := Nat.mod_lt _ (by omega)

theorem xorByte_involution {a k : Nat} (ha : a < 256) (hk : k < 256) :
    xorByte (xorByte a k) k = a := by
  unfold xorByte
  have h1 : a ^^^ k < 256 := Nat.xor_lt_two_pow (n := 8) ha hk
  rw [Nat.mod_eq_of_lt h1, Nat.xor_assoc, Nat.xor_self, Nat.xor_zero, Nat.mod_eq_of_lt ha]

theorem getD_lt_256 {key : List Nat} (hkey : ∀ k ∈ key, k < 256) (j : Nat) :
    key.getD j 0 < 256 := by
  cases h : key[j]? with
  | none => simp [List.getD, h]
  | some v =>
    have hv : v ∈ key := List.get?_mem (by rw [List.get?_eq_getElem?, h])
    simpa [List.getD, h] using hkey v hv

theorem xorCycle_lt (key : List Nat) :
    ∀ (data : List Nat) (i : Nat), ∀ b ∈ xorCycle key i data, b < 256 := by
  intro data
  induction data with
  | nil => intro i b hb; cases hb
  | cons x rest ih =>
    intro i b hb
    rw [xorCycle] at hb
    rcases List.mem_cons.mp hb with rfl | hb
    · exact xorByte_lt _ _
    · exact ih (i + 1) b hb

theorem xorCycle_involution (key : List Nat) (hkey : ∀ k ∈ key, k < 256) :
    ∀ (data : List Nat) (i : Nat), (∀ b ∈ data, b < 256) →
      xorCycle key i (xorCycle key i data) = data := by
  intro data
  induction data with
  | nil => intros; rfl
  | cons b rest ih =>
    intro i hd
    rw [xorCycle, xorCycle]
    rw [xorByte_involution (hd b (List.mem_cons_self b rest)) (getD_lt_256 hkey _),
        ih (i + 1) (fun x hx => hd x (List.mem_cons_of_mem b hx))]

theorem b64DecodeChar_b64Ch_fin :
    ∀ n : Fin 64, b64DecodeChar (b64Ch n.val) = Option.some n.val := by decide

theorem b64_char_roundtrip {n : Nat} (hn : n < 64) :
    b64DecodeChar (b64Ch n) = Option.some n :=
  b64DecodeChar_b64Ch_fin ⟨n, hn⟩

theorem b64Ch_ne_pad_fin : ∀ n : Fin 64, b64Ch n.val ≠ '=' := by decide

theorem b64Ch_ne_pad {n : Nat} (hn : n < 64) : b64Ch n ≠ '=' :=
  b64Ch_ne_pad_fin ⟨n, hn⟩

theorem b64_roundtrip :
    ∀ l : List Nat, (∀ b ∈ l, b < 256) → b64Decode (b64Encode l) = Option.some l := by
  intro l
  induction l using b64Encode.induct with
  | case1 =>
    intro _
    rfl
  | case2 a =>
    intro hb
    have ha : a < 256 := hb a (by simp)
    rw [b64Encode]
    show b64Decode (b64Ch (a / 4) :: b64Ch (a % 4 * 16) :: '=' :: '=' :: []) = _
    rw [b64Decode, if_pos ⟨rfl, rfl, rfl⟩,
        b64_char_roundtrip (show a / 4 < 64 by omega),
        b64_char_roundtrip (show a % 4 * 16 < 64 by omega)]
    simp only [Option.some.injEq, List.cons.injEq, and_true]
    omega
  | case3 a b =>
    intro hb
    have ha : a < 256 := hb a (by simp)
    have hbb : b < 256 := hb b (by simp)
    rw [b64Encode]
    show b64Decode
      (b64Ch (a / 4) :: b64Ch (a % 4 * 16 + b / 16) :: b64Ch (b % 16 * 4) :: '=' :: []) = _
    rw [b64Decode,
        if_neg (fun hcon => b64Ch_ne_pad (show b % 16 * 4 < 64 by omega) hcon.1),
        if_pos ⟨rfl, rfl⟩,
        b64_char_roundtrip (show a / 4 < 64 by omega),
        b64_char_roundtrip (show a % 4 * 16 + b / 16 < 64 by omega),
        b64_char_roundtrip (show b % 16 * 4 < 64 by omega)]
    simp only [Option.some.injEq, List.cons.injEq, and_true]
    omega
  | case4 a b c rest ih =>
    intro hb
    have ha : a < 256 := hb a (by simp)
    have hbb : b < 256 := hb b (by simp)
    have hc : c < 256 := hb c (by simp)
    have hrest : ∀ x ∈ rest, x < 256 := fun x hx => hb x (by simp [hx])
    rw [b64Encode]
    show b64Decode
      (b64Ch (a / 4) :: b64Ch (a % 4 * 16 + b / 16) :: b64Ch (b % 16 * 4 + c / 64)
        :: b64Ch (c % 64) :: b64Encode rest) = _
    rw [b64Decode,
        if_neg (fun hcon => b64Ch_ne_pad (show b % 16 * 4 + c / 64 < 64 by omega) hcon.1),
        if_neg (fun hcon => b64Ch_ne_pad (show c % 64 < 64 by omega) hcon.1),
        b64_char_roundtrip (show a / 4 < 64 by omega),
        b64_char_roundtrip (show a % 4 * 16 + b / 16 < 64 by omega),
        b64_char_roundtrip (show b % 16 * 4 + c / 64 < 64 by omega),
        b64_char_roundtrip (show c % 64 < 64 by omega),
        ih hrest]
    simp only [Option.map_some', Option.some.injEq, List.cons.injEq]
    refine ⟨by omega, by omega, by omega, trivial⟩

theorem utf8DecodeOne_encodeChar (c : Char) (bs : List Nat) :
    ∃ b1 t, utf8EncodeChar c = b1 :: t ∧
      utf8DecodeOne b1 (t ++ bs) = Option.some (c, bs) := by
  have hn : c.toNat < 1114112 := char_toNat_lt c
  by_cases h1 : c.toNat < 128
  · refine ⟨c.toNat, [], by simp [utf8EncodeChar, h1], ?_⟩
    simp only [List.nil_append]
    unfold utf8DecodeOne
    rw [if_pos h1, Char.ofNat_toNat]
  · by_cases h2 : c.toNat < 2048
    · refine ⟨192 + c.toNat / 64, [128 + c.toNat % 64],
        by simp [utf8EncodeChar, h1, h2], ?_⟩
      simp only [List.cons_append, List.nil_append]
      unfold utf8DecodeOne
      rw [if_neg (by omega), if_pos (by constructor <;> omega)]
      dsimp only
      rw [if_pos (by constructor <;> omega)]
      have harith : (192 + c.toNat / 64 - 192) * 64 + (128 + c.toNat % 64 - 128)
          = c.toNat := by omega
      rw [harith, Char.ofNat_toNat]
    · by_cases h3 : c.toNat < 65536
      · refine ⟨224 + c.toNat / 4096, [128 + c.toNat / 64 % 64, 128 + c.toNat % 64],
          by simp [utf8EncodeChar, h1, h2, h3], ?_⟩
        simp only [List.cons_append, List.nil_append]
        unfold utf8DecodeOne
        rw [if_neg (by omega), if_neg (by omega), if_pos (by constructor <;> omega)]
        dsimp only
        rw [if_pos ⟨by constructor <;> omega, by constructor <;> omega⟩]
        have harith : (224 + c.toNat / 4096 - 224) * 4096
            + (128 + c.toNat / 64 % 64 - 128) * 64 + (128 + c.toNat % 64 - 128)
            = c.toNat := by omega
        rw [harith, Char.ofNat_toNat]
      · refine ⟨240 + c.toNat / 262144,
          [128 + c.toNat / 4096 % 64, 128 + c.toNat / 64 % 64, 128 + c.toNat % 64],
          by simp [utf8EncodeChar, h1, h2, h3], ?_⟩
        simp only [List.cons_append, List.nil_append]
        unfold utf8DecodeOne
        rw [if_neg (by omega), if_neg (by omega), if_neg (by omega),
            if_pos (by constructor <;> omega)]
        dsimp only
        rw [if_pos ⟨by constructor <;> omega, by constructor <;> omega,
              by constructor <;> omega⟩]
        have harith : (240 + c.toNat / 262144 - 240) * 262144
            + (128 + c.toNat / 4096 % 64 - 128) * 4096
            + (128 + c.toNat / 64 % 64 - 128) * 64 + (128 + c.toNat % 64 - 128)
            = c.toNat := by omega
        rw [harith, Char.ofNat_toNat]

theorem utf8DecodeFuel_encode :
    ∀ (l : List Char) (fuel : Nat), l.length ≤ fuel →
      utf8DecodeFuel fuel (utf8Encode l) = Option.some l := by
  intro l
  induction l with
  | nil =>
    intro fuel _
    cases fuel <;> rfl
  | cons c ls ih =>
    intro fuel hf
    obtain ⟨f, rfl⟩ : ∃ f, fuel = f + 1 := ⟨fuel - 1, by simp at hf; omega⟩
    obtain ⟨b1, t, he, hone⟩ := utf8DecodeOne_encodeChar c (utf8Encode ls)
    rw [utf8Encode, he]
    simp only [List.cons_append]
    rw [utf8DecodeFuel, hone]
    dsimp only
    have hls : ls.length ≤ f := by simp at hf; omega
    rw [ih f hls]
    rfl

theorem utf8Encode_length_ge (l : List Char) : l.length ≤ (utf8Encode l).length := by
  induction l with
  | nil => simp [utf8Encode]
  | cons c rest ih =>
    rw [utf8Encode]
    have h1 : 1 ≤ (utf8EncodeChar c).length := by
      simp only [utf8EncodeChar]
      split_ifs <;> simp
    simp only [List.length_append, List.length_cons]
    omega

theorem utf8Decode_utf8Encode (l : List Char) :
    utf8Decode (utf8Encode l) = Option.some l :=
  utf8DecodeFuel_encode l _ (utf8Encode_length_ge l)

/-! ## Health checker lemmas -/

/-- After `stop()` the timer is cleared: further ticks change nothing. -/
theorem runHealth_stopped_absorb (t : List Bool) (g : Nat) :
    runHealth ⟨g, true⟩ t = ⟨g, true⟩ := by
  induction t with
  | nil => rfl
  | cons r rest ih => simpa [runHealth, checkHealth] using ih

theorem startsWithFalses_mono :
    ∀ (t : List Bool) (n m : Nat), m ≤ n →
      startsWithFalses n t = true → startsWithFalses m t = true := by
  intro t
  induction t with
  | nil =>
    intro n m hmn h
    cases n with
    | zero =>
      have : m = 0 := Nat.le_zero.mp hmn
      simp [this, startsWithFalses]
    | succ k => simp [startsWithFalses] at h
  | cons b rest ih =>
    intro n m hmn h
    cases m with
    | zero => rfl
    | succ m0 =>
      cases n with
      | zero => omega
      | succ n0 =>
        cases b with
        | true => simp [startsWithFalses] at h
        | false =>
          simp only [startsWithFalses] at h ⊢
          exact ih n0 m0 (by omega) h

theorem spec_of_startsWithFalses_three (t : List Bool)
    (h : startsWithFalses 3 t = true) : specThreeConsecFailures t = true := by
  match t, h with
  | false :: false :: false :: rest, _ => rfl
  | [], h => simp [startsWithFalses] at h
  | true :: rest, h => simp [startsWithFalses] at h
  | [false], h => simp [startsWithFalses] at h
  | false :: true :: rest, h => simp [startsWithFalses] at h
  | [false, false], h => simp [startsWithFalses] at h
  | false :: false :: true :: rest, h => simp [startsWithFalses] at h

theorem specThreeConsecFailures_false_cons (rest : List Bool) :
    specThreeConsecFailures (false :: rest)
      = (startsWithFalses 2 rest || specThreeConsecFailures rest) := by
  match rest with
  | [] => rfl
  | true :: r => rfl
  | [false] => rfl
  | false :: true :: r => rfl
  | false :: false :: r => simp [specThreeConsecFailures, startsWithFalses]

/-- The health checker started with `f ≤ 2` accumulated failures stops on
a trace iff the trace starts with `3 − f` failures or contains 3
consecutive failures. -/
theorem runHealth_stopped_eq :
    ∀ (t : List Bool) (f : Nat), f ≤ 2 →
      (runHealth ⟨f, false⟩ t).stopped
        = (startsWithFalses (3 - f) t || specThreeConsecFailures t) := by
  intro t
  induction t with
  | nil =>
    intro f hf
    have h3 : 3 - f = (2 - f) + 1 := by omega
    simp [runHealth, h3, startsWithFalses, specThreeConsecFailures]
  | cons r rest ih =>
    intro f hf
    cases r with
    | true =>
      have hstep : checkHealth ⟨f, false⟩ true = ⟨0, false⟩ := by
        simp [checkHealth]
      rw [runHealth, hstep, ih 0 (by omega)]
      have h3 : 3 - f = (2 - f) + 1 := by omega
      rw [h3]
      simp only [startsWithFalses, specThreeConsecFailures, Bool.false_or]
      cases hsw : startsWithFalses (3 - 0) rest with
      | false => simp
      | true =>
        have := spec_of_startsWithFalses_three rest (by simpa using hsw)
        simp [this]
    | false =>
      by_cases h2 : f = 2
      · subst h2
        have hstep : checkHealth ⟨2, false⟩ false = ⟨3, true⟩ := by
          simp [checkHealth, maxHealthFailures]
        rw [runHealth, hstep, runHealth_stopped_absorb]
        simp [startsWithFalses]
      · have hstep : checkHealth ⟨f, false⟩ false = ⟨f + 1, false⟩ := by
          simp only [checkHealth, Bool.false_eq_true, if_false, maxHealthFailures]
          have : ¬ (3 ≤ f + 1) := by omega
          simp [this]
        rw [runHealth, hstep, ih (f + 1) (by omega)]
        have h3 : 3 - f = (3 - (f + 1)) + 1 := by omega
        rw [h3]
        simp only [startsWithFalses, specThreeConsecFailures_false_cons]
        cases hsw : startsWithFalses 2 rest with
        | false => simp
        | true =>
          have hsw2 : startsWithFalses (2 - f) rest = true :=
            startsWithFalses_mono rest 2 (2 - f) (by omega) hsw
          have h21 : 3 - (f + 1) = 2 - f := by omega
          simp [h21, hsw2]

end Mars

/-! ## Claim theorems -/

/-- C1: for every miner index `i ≥ 1` the port triple is exactly
`http = 8546 + 2·(i−1)`, `ws = 8547 + 2·(i−1)`, `p2p = 30304 + (i−1)`,
and the instance's `rpcUrl` is `"http://localhost:<http>"`.  The mapping
is a pure function of the index alone, so it is never renegotiated. -/
theorem C1_port_triple (i : Nat) (h : 1 ≤ i) :
    Mars.getPorts i = ⟨8546 + 2 * (i - 1), 8547 + 2 * (i - 1), 30304 + (i - 1)⟩ ∧
    Mars.rpcUrl i = "http://localhost:" ++ toString (8546 + 2 * (i - 1)) := by
  constructor
  · simp only [Mars.getPorts, Mars.Ports.mk.injEq]
    exact ⟨by omega, by omega, trivial⟩
  · simp only [Mars.rpcUrl, Mars.httpPort, Mars.getPorts]
    rw [Nat.mul_comm]

/-- C1 witness: the port triple and RPC URL at miner index 2. -/
theorem C1_port_triple_witness :
    Mars.getPorts 2 = ⟨8548, 8549, 30305⟩ ∧
    Mars.rpcUrl 2 = "http://localhost:8548" :=
  C1_port_triple 2 (by decide)

/-- C2 counterexample: from an empty registry, `addTab` twice (indices 1
and 2, so the maximum is k = 2), then `removeTab(2)` and `addTab()`.  The
code allocates index 2 again — `max existing + 1` over the remaining
indices — not k + 1 = 3 as the claim states: indices ARE recycled. -/
theorem C2_addTab_counterexample :
    (Mars.addTab
      (Mars.removeTab
        (Mars.addTab
          (Mars.addTab Mars.ServiceState.empty Option.none).2 Option.none).2 2)
      Option.none).1 = 2 ∧
    (Mars.addTab
      (Mars.removeTab
        (Mars.addTab
          (Mars.addTab Mars.ServiceState.empty Option.none).2 Option.none).2 2)
      Option.none).1 ≠ 3 := by
  exact ⟨rfl, by decide⟩

/-- C2 amended: after `removeTab(k)` where `k` is the maximum existing
index (indices being 1-based), `addTab()` allocates an index `≤ k`, never
`k + 1` — the removed maximum is recycled; and `addTab` called N times
from an empty registry without removals still yields indices 1..N in
order. -/
theorem C2_addTab_allocation :
    (∀ (s : Mars.ServiceState) (k : Nat),
        (∀ j ∈ s.instances.map (fun p => p.1), 1 ≤ j) →
        k ∈ s.instances.map (fun p => p.1) →
        (∀ j ∈ s.instances.map (fun p => p.1), j ≤ k) →
        (Mars.addTab (Mars.removeTab s k) Option.none).1 ≤ k) ∧
    (∀ n : Nat, (Mars.addTabsCollect n Mars.ServiceState.empty).2 = List.range' 1 n) := by
  constructor
  · intro s k h1 hk hmax
    have h1k : 1 ≤ k := h1 k hk
    obtain ⟨inst, hinst⟩ := Option.isSome_iff_exists.mp (Mars.lookup_isSome_of_mem_keys hk)
    have hrem : Mars.removeTab s k =
        ⟨Mars.mapDelete k s.instances, Mars.mapDelete k s.configCache⟩ := by
      unfold Mars.removeTab
      rw [hinst]
    rw [hrem]
    set s2 : Mars.ServiceState :=
      ⟨Mars.mapDelete k s.instances, Mars.mapDelete k s.configCache⟩ with hs2
    by_cases hnil : (Mars.getTabIndices s2).length = 0
    · simp [Mars.addTab, hnil]
      exact h1k
    · have hbound : ∀ j ∈ s2.instances.map (fun p => p.1), j ≤ k - 1 := by
        intro j hj
        obtain ⟨hj1, hj2⟩ := Mars.mem_keys_mapDelete.mp hj
        have := hmax j hj1
        omega
      have hmaxle : Mars.jsMathMax (Mars.getTabIndices s2) ≤ k - 1 := by
        rw [Mars.jsMathMax_getTabIndices]
        exact Mars.foldl_max_le hbound (by omega)
      simp [Mars.addTab, hnil]
      omega
  · intro n
    exact Mars.addTabsCollect_range n Mars.ServiceState.empty 0 rfl (fun _ => rfl)

/-- C2 amended witness: a two-tab registry {1, 2}; after removing the
maximum 2, `addTab` allocates an index ≤ 2 (in fact exactly 2). -/
theorem C2_addTab_allocation_witness :
    (Mars.addTab (Mars.removeTab
      ⟨[(1, ⟨1, 1, 4096, Option.none, Option.none⟩),
        (2, ⟨2, 1, 4096, Option.none, Option.none⟩)], []⟩ 2) Option.none).1 ≤ 2 :=
  C2_addTab_allocation.1 _ 2 (by decide) (by decide) (by decide)

/-- C10: `removeTab(i)` erases both the instance and the cached config:
afterwards `getMinerState(i)` is null, and a subsequent
`getOrCreateInstance(i)` (as called by `startMiner`) with no explicit
config creates an instance with the defaults `minerThreads = 1`,
`cacheMB = 4096` and no etherbase, and re-caches exactly those defaults. -/
theorem C10_removeTab_erases (s : Mars.ServiceState) (i : Nat)
    (h : (s.instances.lookup i).isSome = true) :
    Mars.getMinerState (Mars.removeTab s i) i = Option.none ∧
    (Mars.getOrCreateInstance (Mars.removeTab s i) i Option.none).1.minerThreads = 1 ∧
    (Mars.getOrCreateInstance (Mars.removeTab s i) i Option.none).1.cacheMB = 4096 ∧
    (Mars.getOrCreateInstance (Mars.removeTab s i) i Option.none).1.etherbase = Option.none ∧
    (Mars.getOrCreateInstance (Mars.removeTab s i) i Option.none).2.configCache.lookup i
      = Option.some ⟨1, 4096, Option.none⟩ := by
  obtain ⟨inst, hinst⟩ := Option.isSome_iff_exists.mp h
  have hrem : Mars.removeTab s i =
      ⟨Mars.mapDelete i s.instances, Mars.mapDelete i s.configCache⟩ := by
    unfold Mars.removeTab
    rw [hinst]
  rw [hrem]
  have hdi : (Mars.mapDelete i s.instances).lookup i = Option.none :=
    Mars.lookup_mapDelete_self i s.instances
  have hdc : (Mars.mapDelete i s.configCache).lookup i = Option.none :=
    Mars.lookup_mapDelete_self i s.configCache
  refine ⟨?_, ?_⟩
  · unfold Mars.getMinerState
    rw [hdi]
  · unfold Mars.getOrCreateInstance
    rw [hdi, hdc]
    simp [Mars.defaultCached, Mars.lookup_mapSet_self]

/-- C10 witness: a one-tab registry with non-default config at index 1. -/
theorem C10_removeTab_erases_witness :
    Mars.getMinerState (Mars.removeTab
      ⟨[(1, ⟨1, 2, 512, Option.some "0xaa", Option.some 7⟩)], [(1, ⟨2, 512, Option.some "0xaa"⟩)]⟩ 1) 1
      = Option.none ∧
    (Mars.getOrCreateInstance (Mars.removeTab
      ⟨[(1, ⟨1, 2, 512, Option.some "0xaa", Option.some 7⟩)], [(1, ⟨2, 512, Option.some "0xaa"⟩)]⟩ 1) 1
      Option.none).1.minerThreads = 1 ∧
    (Mars.getOrCreateInstance (Mars.removeTab
      ⟨[(1, ⟨1, 2, 512, Option.some "0xaa", Option.some 7⟩)], [(1, ⟨2, 512, Option.some "0xaa"⟩)]⟩ 1) 1
      Option.none).1.cacheMB = 4096 ∧
    (Mars.getOrCreateInstance (Mars.removeTab
      ⟨[(1, ⟨1, 2, 512, Option.some "0xaa", Option.some 7⟩)], [(1, ⟨2, 512, Option.some "0xaa"⟩)]⟩ 1) 1
      Option.none).1.etherbase = Option.none ∧
    (Mars.getOrCreateInstance (Mars.removeTab
      ⟨[(1, ⟨1, 2, 512, Option.some "0xaa", Option.some 7⟩)], [(1, ⟨2, 512, Option.some "0xaa"⟩)]⟩ 1) 1
      Option.none).2.configCache.lookup 1 = Option.some ⟨1, 4096, Option.none⟩ :=
  C10_removeTab_erases _ 1 rfl

/-- C7 counterexample: on an instance that already owns a child (pid 42),
`start()` resolves normally (`ok`, not an error) — it logs a warning and
returns early rather than failing as the claim states; it does spawn no
second child (no actions). -/
theorem C7_start_counterexample :
    Mars.instanceStart 1 ⟨Option.some 42, 0, true⟩ true 99
        = (Except.ok ⟨Option.some 42, 0, true⟩, []) ∧
    Mars.exceptIsOk (Mars.instanceStart 1 ⟨Option.some 42, 0, true⟩ true 99).1 = true :=
  ⟨rfl, rfl⟩

/-- C7 amended: when the instance already owns a child process, `start()`
returns normally as a no-op — unchanged state, no spawn, no genesis init —
so at most one child process is ever owned per miner index. -/
theorem C7_start_noop_when_running (st : Mars.InstProcState) (i newPid : Nat)
    (initOk : Bool) (p : Nat) (h : st.processPid = Option.some p) :
    Mars.instanceStart i st initOk newPid = (Except.ok st, []) := by
  unfold Mars.instanceStart
  rw [h]

/-- C7 amended witness: the no-op at a concrete running instance. -/
theorem C7_start_noop_when_running_witness :
    Mars.instanceStart 2 ⟨Option.some 41, 1, true⟩ false 77
      = (Except.ok ⟨Option.some 41, 1, true⟩, []) :=
  C7_start_noop_when_running ⟨Option.some 41, 1, true⟩ 2 77 false 41 rfl

/-- C4: starting from `startHealthCheck` (counter 0), the health checker
invokes `stop()` on a probe trace exactly when the trace contains 3
consecutive failures (so never before 3 consecutive failures have
accumulated); a single successful (2xx) probe resets the counter to 0;
and a failing tick triggers `stop()` exactly when the counter reaches
`maxHealthFailures = 3`. -/
theorem C4_health_stop_exactly_three :
    (∀ t : List Bool,
        (Mars.runHealth Mars.startHealthState t).stopped
          = Mars.specThreeConsecFailures t) ∧
    (∀ s : Mars.HealthState, s.stopped = false →
        (Mars.checkHealth s true).healthFailures = 0) ∧
    (∀ s : Mars.HealthState, s.stopped = false →
        ((Mars.checkHealth s false).stopped = true ↔
          Mars.maxHealthFailures ≤ s.healthFailures + 1)) := by
  refine ⟨?_, ?_, ?_⟩
  · intro t
    have h := Mars.runHealth_stopped_eq t 0 (by omega)
    rw [Mars.startHealthState, h]
    cases hsw : Mars.startsWithFalses (3 - 0) t with
    | false => simp
    | true =>
      have := Mars.spec_of_startsWithFalses_three t (by simpa using hsw)
      simp [this]
  · intro s hs
    obtain ⟨g, st⟩ := s
    simp only at hs
    subst hs
    simp [Mars.checkHealth]
  · intro s hs
    obtain ⟨g, st⟩ := s
    simp only at hs
    subst hs
    by_cases h3 : Mars.maxHealthFailures ≤ g + 1
    · simp [Mars.checkHealth, h3]
    · simp [Mars.checkHealth, h3]

/-- C4 witness: a trace with a reset (success after two failures) and
then three consecutive failures; and single ticks at counter 2. -/
theorem C4_health_stop_exactly_three_witness :
    ((Mars.runHealth Mars.startHealthState [false, false, true, false, false, false]).stopped
        = Mars.specThreeConsecFailures [false, false, true, false, false, false]) ∧
    (Mars.checkHealth ⟨2, false⟩ true).healthFailures = 0 ∧
    ((Mars.checkHealth ⟨2, false⟩ false).stopped = true ↔
      Mars.maxHealthFailures ≤ 2 + 1) :=
  ⟨C4_health_stop_exactly_three.1 _,
   C4_health_stop_exactly_three.2.1 ⟨2, false⟩ rfl,
   C4_health_stop_exactly_three.2.2 ⟨2, false⟩ rfl⟩

/-- C5: `initMinerDataDir` is idempotent: when `miners/<i>/geth/chaindata`
already exists the call returns without performing any action (no mkdir,
no `geth init`) and leaves the filesystem unchanged; consequently a
second run after any successful run is such a no-op, leaving the chain
data untouched. -/
theorem C5_initMinerDataDir_idempotent :
    (∀ (home genesis : String) (i : Nat) (fs : List String) (gOk gEx : Bool),
        (Mars.getMinerDataDir home i ++ "/" ++ Mars.chaindataSubdir) ∈ fs →
        Mars.initMinerDataDir home gOk genesis gEx i fs = Except.ok (fs, [])) ∧
    (∀ (home genesis : String) (i : Nat) (fs : List String) (gOk gEx : Bool)
        (fs2 : List String) (acts : List Mars.GInitAction),
        Mars.initMinerDataDir home gOk genesis gEx i fs = Except.ok (fs2, acts) →
        Mars.initMinerDataDir home gOk genesis gEx i fs2 = Except.ok (fs2, [])) := by
  have part1 : ∀ (home genesis : String) (i : Nat) (fs : List String) (gOk gEx : Bool),
      (Mars.getMinerDataDir home i ++ "/" ++ Mars.chaindataSubdir) ∈ fs →
      Mars.initMinerDataDir home gOk genesis gEx i fs = Except.ok (fs, []) := by
    intro home genesis i fs gOk gEx hmem
    unfold Mars.initMinerDataDir
    simp [hmem]
  refine ⟨part1, ?_⟩
  intro home genesis i fs gOk gEx fs2 acts h
  unfold Mars.initMinerDataDir at h
  split_ifs at h with h1 h2 h3
  · simp only [Except.ok.injEq, Prod.mk.injEq] at h
    obtain ⟨hfs, -⟩ := h
    subst hfs
    exact part1 home genesis i _ gOk gEx h1
  · simp only [Except.ok.injEq, Prod.mk.injEq] at h
    obtain ⟨hfs, -⟩ := h
    subst hfs
    exact part1 home genesis i _ gOk gEx (by simp)

/-- C5 witness: already-initialized state is a no-op, and a successful
fresh run followed by a second run is a no-op on the produced state. -/
theorem C5_initMinerDataDir_idempotent_witness :
    Mars.initMinerDataDir "/h" true "/g.json" true 1
        ["/h/.marscredit/miners/1/geth/chaindata"]
      = Except.ok (["/h/.marscredit/miners/1/geth/chaindata"], []) ∧
    Mars.initMinerDataDir "/h" true "/g.json" true 1
        ["/h/.marscredit/miners/1", "/h/.marscredit/miners/1/keystore",
         "/h/.marscredit/miners/1/logs", "/h/.marscredit/miners/1/geth/chaindata"]
      = Except.ok (["/h/.marscredit/miners/1", "/h/.marscredit/miners/1/keystore",
         "/h/.marscredit/miners/1/logs", "/h/.marscredit/miners/1/geth/chaindata"], []) :=
  ⟨C5_initMinerDataDir_idempotent.1 "/h" "/g.json" 1 _ true true (by decide),
   C5_initMinerDataDir_idempotent.2 "/h" "/g.json" 1 [] true true _ _ rfl⟩

/-- C6: after a successful `setAddressOnly(a)` (so `a` matches
`^0x[0-9a-fA-F]{40}$`), `getStoredMiningAddress` returns exactly `a` —
the stored file's content is trimmed, and trimming a valid address is the
identity — and the `mining_address.txt` branch wins over the keystore
branch for every supplied index, every keystore dir state and every
keystore JSON parse outcome. -/
theorem C6_setAddressOnly_roundtrip (a : String) (fs : Mars.WalletFs)
    (parse : String → Option String) (idx : Option Nat)
    (fs2 : Mars.WalletFs) (acts : List Mars.WalletAction)
    (hok : Mars.setAddressOnly a fs = Except.ok (fs2, acts)) :
    Mars.getStoredMiningAddress parse fs2 idx = Option.some a := by
  unfold Mars.setAddressOnly at hok
  split_ifs at hok with hv
  simp only [Except.ok.injEq, Prod.mk.injEq] at hok
  obtain ⟨hfs, -⟩ := hok
  subst hfs
  unfold Mars.getStoredMiningAddress
  simp [Mars.jsTrim_valid hv]

/-- C6 witness: a concrete valid address stored over a filesystem that
also has a keystore file for miner 1, queried with index 1 and a parser
that would return a different address — the file still wins. -/
theorem C6_setAddressOnly_roundtrip_witness :
    Mars.getStoredMiningAddress (fun _ => Option.some "00ff")
      ⟨Option.some "0x00000000000000000000000000000000000000aB", true,
       fun _ => true, fun _ => [("UTC--k", "ks")]⟩
      (Option.some 1)
      = Option.some "0x00000000000000000000000000000000000000aB" :=
  C6_setAddressOnly_roundtrip "0x00000000000000000000000000000000000000aB"
    ⟨Option.none, false, fun _ => true, fun _ => [("UTC--k", "ks")]⟩
    (fun _ => Option.some "00ff") (Option.some 1) _ _ rfl

/-- C8: for a string not matching `^0x[0-9a-fA-F]{40}$`, `setAddressOnly`
throws `Invalid address` — the validation precedes every filesystem
operation, so the error return carries no new filesystem state and an
empty action trace: the stored state is unchanged. -/
theorem C8_setAddressOnly_invalid (a : String) (fs : Mars.WalletFs)
    (h : Mars.isValidAddress a = false) :
    Mars.setAddressOnly a fs = Except.error "Invalid address" := by
  unfold Mars.setAddressOnly
  simp [h]

/-- C8 witness: a malformed address (too short) is refused. -/
theorem C8_setAddressOnly_invalid_witness :
    Mars.setAddressOnly "0x1234" ⟨Option.none, false, fun _ => false, fun _ => []⟩
      = Except.error "Invalid address" :=
  C8_setAddressOnly_invalid "0x1234" ⟨Option.none, false, fun _ => false, fun _ => []⟩
    (by decide)

/-- C9: `loadMnemonic(p)` after `saveMnemonic(m, p)` returns exactly `m`
for every mnemonic `m` and non-empty password `p`: XOR with the cycled
password bytes is an involution on bytes, base64 decode inverts encode,
and UTF-8 decode inverts encode. -/
theorem C9_mnemonic_roundtrip (m p : String) (hp : p ≠ "") :
    Mars.loadMnemonic p (Option.some (Mars.saveMnemonic m p)) = Option.some m := by
  unfold Mars.loadMnemonic Mars.saveMnemonic Mars.simpleObfuscate Mars.simpleDeobfuscate
  dsimp only
  rw [Mars.b64_roundtrip _ (Mars.xorCycle_lt _ _ 0)]
  dsimp only
  rw [Mars.xorCycle_involution _ (Mars.utf8Encode_lt _) _ 0 (Mars.utf8Encode_lt _),
      Mars.utf8Decode_utf8Encode]
  rfl

/-- C9 witness: a concrete mnemonic and password round-trip. -/
theorem C9_mnemonic_roundtrip_witness :
    Mars.loadMnemonic "pw" (Option.some (Mars.saveMnemonic "abandon ability zoo" "pw"))
      = Option.some "abandon ability zoo" :=
  C9_mnemonic_roundtrip "abandon ability zoo" "pw" (by decide)

/-- C3 counter-evidence: the code renders `10^18` wei (hex
`0xde0b6b3a7640000`) as `"1.0"`, not `"1"` as the spec's test demands —
the `|| '0'` makes `fracStr` always nonempty, so the whole-only branch is
dead — while the second spec example `"0.1"` does hold. -/
theorem C3_weiToMars_bug :
    Mars.weiToMars "0xde0b6b3a7640000" = "1.0" ∧
    Mars.weiToMars "0x16345785d8a0000" = "0.1" := by
  constructor <;> rfl
